import Mathlib

/-!
# Verification of the Rotel IP control protocol client

Shallow embedding of `custom_components/rotel_ip/rotel.py` (an asyncio TCP
client for the Rotel ASCII control protocol) together with the parts of
`profiles.py` the client consumes.

Modelling conventions:
* Received byte streams are modelled as `List Char` of ASCII characters
  (the protocol is ASCII; per-frame `decode("ascii", errors="ignore")` is the
  identity at this granularity).
* Python dicts of strings are association lists with Python insertion
  semantics: updating an existing key overwrites in place, a new key is
  appended (`dictInsert`).
* Python sets of callbacks are `List Nat` (callbacks named by identifiers)
  with `set.add` / `set.discard` semantics (`pySetAdd` / `pySetDiscard`).
* The reconnect backoff is a float in the source holding only the values
  1, 2, 4, 8, 16, 30, on which IEEE arithmetic is exact; it is modelled
  as `ℚ`.
* Asynchronous waiting (`asyncio.wait_for`) is modelled by an explicit
  outcome datatype: either the one-shot listener fired with a message, or
  the timeout elapsed.
-/

namespace RotelIP

/-! ## Python string primitives used by `_parse_line` -/

/-- The characters Python's `str.strip()` removes (ASCII whitespace). -/
def isPySpace (c : Char) : Bool :=
  c = ' ' || c = '\t' || c = '\n' || c = '\r' || c = '\x0b' || c = '\x0c'

/-- Python `str.lstrip`: drop the leading characters satisfying `p`. -/
def pyLstrip (p : Char → Bool) (l : List Char) : List Char :=
  l.dropWhile p

/-- Python `str.rstrip`: drop the trailing characters satisfying `p`. -/
def pyRstrip (p : Char → Bool) (l : List Char) : List Char :=
  (l.reverse.dropWhile p).reverse

/-- Python `str.strip`: drop characters satisfying `p` from both ends. -/
def pyStrip (p : Char → Bool) (l : List Char) : List Char :=
  pyRstrip p (pyLstrip p l)

/-- Python `str.split(sep)` for a one-character separator: full split,
keeping empty segments (`"".split(",") = [""]`). -/
def pySplit (sep : Char) : List Char → List (List Char)
  | [] => [[]]
  | c :: rest =>
    if c = sep then [] :: pySplit sep rest
    else
      match pySplit sep rest with
      | [] => [[c]]
      | p :: ps => (c :: p) :: ps

/-- Python `str.lower()` (ASCII data in this protocol). -/
def pyLower (l : List Char) : List Char := l.map Char.toLower

/-- Python `part.split("=", 1)`: the pair around the first `'='`. Only used on
parts that contain `'='`. -/
def splitFirstEq (part : List Char) : List Char × List Char :=
  (part.takeWhile (· ≠ '='), (part.dropWhile (· ≠ '=')).tail)

/-- A parsed device message: Python `dict[str, str]` as an association
list in insertion order. -/
abbrev Dict := List (List Char × List Char)

/-- Python `out[k] = v`: overwrite in place if `k` is present, else append. -/
def dictInsert (d : Dict) (k v : List Char) : Dict :=
  if d.any (fun kv => kv.1 = k) then
    d.map (fun kv => if kv.1 = k then (k, v) else kv)
  else d ++ [(k, v)]

/-! ## `_parse_line` (rotel.py lines 13-30) -/

/-- Model of `_parse_line`: strip whitespace then `'$'` from both ends; reject if
empty or without `'='`; remove spaces, split on `','` into non-empty
parts; for each part containing `'='` split once and store lower-cased
key/value; `return out or None`. -/
def parse_line (line : List Char) : Option Dict :=
  let l1 := pyStrip isPySpace line
  let l2 := pyStrip (fun c => c = '$') l1
  if l2.isEmpty || !l2.contains '=' then none
  else
    let parts := (pySplit ',' (l2.filter (· ≠ ' '))).filter (· ≠ [])
    let out := parts.foldl
      (fun out part =>
        if part.contains '=' then
          let kv := splitFirstEq part
          dictInsert out (pyLower kv.1) (pyLower kv.2)
        else out) []
    if out = [] then none else some out

/-! ## Basic lemmas about the string primitives -/

theorem mem_pyLstrip {p : Char → Bool} {l : List Char} {c : Char}
    (h : c ∈ pyLstrip p l) : c ∈ l := by
  induction l with
  | nil => exact h
  | cons a t ih =>
    by_cases hp : p a
    · exact List.mem_cons_of_mem a (ih (by simpa [pyLstrip, hp] using h))
    · simpa [pyLstrip, hp] using h

theorem mem_pyRstrip {p : Char → Bool} {l : List Char} {c : Char}
    (h : c ∈ pyRstrip p l) : c ∈ l := by
  unfold pyRstrip at h
  have : c ∈ l.reverse := mem_pyLstrip (p := p) (by simpa [pyLstrip] using h)
  simpa using this

theorem mem_pyLstrip_of_not {p : Char → Bool} {l : List Char} {c : Char}
    (h : c ∈ l) (hc : ¬ p c = true) : c ∈ pyLstrip p l := by
  induction l with
  | nil => cases h
  | cons a t ih =>
    by_cases hp : p a
    · have hct : c ∈ t := by
        rcases List.mem_cons.1 h with rfl | hct
        · exact absurd hp hc
        · exact hct
      simpa [pyLstrip, List.dropWhile_cons, hp] using ih hct
    · simpa [pyLstrip, List.dropWhile_cons, hp] using h

theorem mem_pyRstrip_of_not {p : Char → Bool} {l : List Char} {c : Char}
    (h : c ∈ l) (hc : ¬ p c = true) : c ∈ pyRstrip p l := by
  unfold pyRstrip
  simpa using mem_pyLstrip_of_not (l := l.reverse) (by simpa using h) hc

theorem mem_pyStrip_of_not {p : Char → Bool} {l : List Char} {c : Char}
    (h : c ∈ l) (hc : ¬ p c = true) : c ∈ pyStrip p l :=
  mem_pyRstrip_of_not (mem_pyLstrip_of_not h hc) hc

theorem pyLstrip_append_left {p : Char → Bool} {ws l : List Char}
    (h : ∀ c ∈ ws, p c) : pyLstrip p (ws ++ l) = pyLstrip p l := by
  simp [pyLstrip, List.dropWhile_append_of_pos h]

theorem pyRstrip_append_right {p : Char → Bool} {l ws : List Char}
    (h : ∀ c ∈ ws, p c) : pyRstrip p (l ++ ws) = pyRstrip p l := by
  have h' : ∀ c ∈ ws.reverse, p c := by simpa using h
  simp [pyRstrip, List.reverse_append, List.dropWhile_append_of_pos h']

theorem pyLstrip_eq_self {p : Char → Bool} {l : List Char}
    (h : ∀ c ∈ l, ¬ p c = true) : pyLstrip p l = l := by
  cases l with
  | nil => rfl
  | cons a t =>
    have := h a (List.mem_cons_self a t)
    simp [pyLstrip, List.dropWhile_cons, this]

theorem pyRstrip_eq_self {p : Char → Bool} {l : List Char}
    (h : ∀ c ∈ l, ¬ p c = true) : pyRstrip p l = l := by
  unfold pyRstrip
  rw [show l.reverse.dropWhile p = l.reverse from
    pyLstrip_eq_self (l := l.reverse) (by simpa using h)]
  simp

theorem pyStrip_eq_self {p : Char → Bool} {l : List Char}
    (h : ∀ c ∈ l, ¬ p c = true) : pyStrip p l = l := by
  unfold pyStrip
  rw [pyLstrip_eq_self h, pyRstrip_eq_self h]

/-- Dropping an all-`p` prefix and suffix around a middle that has at least
one non-`p` character strips exactly down to the stripped middle. -/
theorem pyStrip_wrap {p : Char → Bool} {ws1 mid ws2 : List Char}
    (h1 : ∀ c ∈ ws1, p c) (h2 : ∀ c ∈ ws2, p c)
    (hmid : ∃ x ∈ mid, ¬ p x = true) :
    pyStrip p (ws1 ++ mid ++ ws2) = pyStrip p mid := by
  have hmid' : mid.dropWhile p ≠ [] := by
    intro hnil
    rcases hmid with ⟨x, hx, hpx⟩
    exact hpx (List.dropWhile_eq_nil_iff.1 hnil x hx)
  unfold pyStrip
  rw [show ws1 ++ mid ++ ws2 = ws1 ++ (mid ++ ws2) by simp,
    pyLstrip_append_left h1]
  have hsplit : pyLstrip p (mid ++ ws2) = pyLstrip p mid ++ ws2 := by
    simp only [pyLstrip, List.dropWhile_append]
    simp [List.isEmpty_iff, hmid']
  rw [hsplit, pyRstrip_append_right h2]

theorem mem_pyStrip {p : Char → Bool} {l : List Char} {c : Char}
    (h : c ∈ pyStrip p l) : c ∈ l :=
  mem_pyLstrip (mem_pyRstrip h)

theorem filter_pyLstrip_space {l : List Char}
    (h : ∀ c ∈ l, isPySpace c = true → c = ' ') :
    (pyLstrip isPySpace l).filter (· ≠ ' ') = l.filter (· ≠ ' ') := by
  induction l with
  | nil => rfl
  | cons a t ih =>
    by_cases hp : isPySpace a
    · have ha : a = ' ' := h a (List.mem_cons_self a t) hp
      subst ha
      rw [show pyLstrip isPySpace (' ' :: t) = pyLstrip isPySpace t by
        simp [pyLstrip, List.dropWhile_cons, hp]]
      rw [ih (fun c hc hsp => h c (List.mem_cons_of_mem _ hc) hsp)]
      simp [List.filter_cons]
    · simp [pyLstrip, List.dropWhile_cons, hp]

theorem filter_pyRstrip_space {l : List Char}
    (h : ∀ c ∈ l, isPySpace c = true → c = ' ') :
    (pyRstrip isPySpace l).filter (· ≠ ' ') = l.filter (· ≠ ' ') := by
  have h' : ∀ c ∈ l.reverse, isPySpace c = true → c = ' ' := by simpa using h
  have key := filter_pyLstrip_space h'
  simp only [pyLstrip] at key
  unfold pyRstrip
  calc ((l.reverse.dropWhile isPySpace).reverse).filter (· ≠ ' ')
      = ((l.reverse.dropWhile isPySpace).filter (· ≠ ' ')).reverse :=
        List.filter_reverse _ _
    _ = (l.reverse.filter (· ≠ ' ')).reverse := by rw [key]
    _ = ((l.filter (· ≠ ' ')).reverse).reverse := by rw [List.filter_reverse]
    _ = l.filter (· ≠ ' ') := by simp

theorem filter_pyStrip_space {l : List Char}
    (h : ∀ c ∈ l, isPySpace c = true → c = ' ') :
    (pyStrip isPySpace l).filter (· ≠ ' ') = l.filter (· ≠ ' ') := by
  unfold pyStrip
  rw [filter_pyRstrip_space
    (fun c hc hsp => h c (mem_pyLstrip hc) hsp)]
  exact filter_pyLstrip_space h

theorem pySplit_no_sep {sep : Char} {l : List Char} (h : sep ∉ l) :
    pySplit sep l = [l] := by
  induction l with
  | nil => rfl
  | cons c t ih =>
    have hc : ¬ c = sep := fun e => h (e ▸ List.mem_cons_self c t)
    have ht : sep ∉ t := fun m => h (List.mem_cons_of_mem _ m)
    simp [pySplit, hc, ih ht]

theorem pySplit_append_sep {sep : Char} {a b : List Char} (h : sep ∉ a) :
    pySplit sep (a ++ sep :: b) = a :: pySplit sep b := by
  induction a with
  | nil => simp [pySplit]
  | cons c t ih =>
    have hc : ¬ c = sep := fun e => h (e ▸ List.mem_cons_self c t)
    have ht : sep ∉ t := fun m => h (List.mem_cons_of_mem _ m)
    simp [pySplit, hc, ih ht]

theorem splitFirstEq_append {a b : List Char} (h : '=' ∉ a) :
    splitFirstEq (a ++ '=' :: b) = (a, b) := by
  have ha : ∀ c ∈ a, (fun c => decide (c ≠ '=')) c = true := by
    intro c hc
    simp only [decide_eq_true_iff]
    exact fun e => h (e ▸ hc)
  unfold splitFirstEq
  rw [List.takeWhile_append_of_pos ha, List.dropWhile_append_of_pos ha]
  simp [List.takeWhile_cons, List.dropWhile_cons]

/-- A character that is not a separator, terminator, assignment sign or
whitespace: the characters well-formed keys and values are made of. -/
def goodChar (c : Char) : Bool :=
  !(c = '=' || c = ',' || c = '$' || isPySpace c)

/-- The part of `_parse_line` that runs after stripping: split the
space-free line on `','` and accumulate the `key=value` parts. -/
def parseBody (body : List Char) : Dict :=
  ((pySplit ',' (body.filter (· ≠ ' '))).filter (· ≠ [])).foldl
    (fun out part =>
      if part.contains '=' then
        dictInsert out (pyLower (splitFirstEq part).1) (pyLower (splitFirstEq part).2)
      else out) []

/-- Stripping reduction: on a body wrapped in surrounding whitespace and an
optional `'$'` terminator, `_parse_line` computes `parseBody body` (with
the `or None` coercion), provided the body has no `'$'`, its only
whitespace characters are plain spaces, and it contains an `'='`. -/
theorem parse_line_wrap {ws1 body term ws2 : List Char}
    (h1 : ∀ c ∈ ws1, isPySpace c = true) (h2 : ∀ c ∈ ws2, isPySpace c = true)
    (hterm : term = [] ∨ term = ['$'])
    (hbody : ∀ c ∈ body, ¬ c = '$' ∧ (isPySpace c = true → c = ' '))
    (heq : '=' ∈ body) :
    parse_line (ws1 ++ body ++ term ++ ws2) =
      if parseBody body = [] then none else some (parseBody body) := by
  have hneq : ¬ isPySpace '=' = true := by decide
  have e1 : pyStrip isPySpace (ws1 ++ body ++ term ++ ws2)
      = pyStrip isPySpace (body ++ term) := by
    rw [show ws1 ++ body ++ term ++ ws2 = ws1 ++ (body ++ term) ++ ws2 by simp]
    exact pyStrip_wrap h1 h2
      ⟨'=', List.mem_append_left _ heq, by decide⟩
  -- The value of the second strip, uniform over the two terminator cases.
  obtain ⟨l2v, e2, hmem, hfil⟩ :
      ∃ l2v, pyStrip (fun c => c = '$') (pyStrip isPySpace (body ++ term)) = l2v
        ∧ '=' ∈ l2v ∧ l2v.filter (· ≠ ' ') = body.filter (· ≠ ' ') := by
    rcases hterm with rfl | rfl
    · refine ⟨pyStrip isPySpace body, ?_, ?_, ?_⟩
      · rw [List.append_nil]
        exact pyStrip_eq_self (fun c hc => by
          simpa using (hbody c (mem_pyStrip hc)).1)
      · exact mem_pyStrip_of_not heq hneq
      · exact filter_pyStrip_space (fun c hc => (hbody c hc).2)
    · have hdropne : body.dropWhile isPySpace ≠ [] := by
        intro hnil
        exact hneq (List.dropWhile_eq_nil_iff.1 hnil '=' heq)
      have elstrip : pyLstrip isPySpace (body ++ ['$'])
          = pyLstrip isPySpace body ++ ['$'] := by
        simp only [pyLstrip, List.dropWhile_append]
        simp [List.isEmpty_iff, hdropne]
      have erstrip : pyRstrip isPySpace (pyLstrip isPySpace body ++ ['$'])
          = pyLstrip isPySpace body ++ ['$'] := by
        unfold pyRstrip
        simp [List.dropWhile_cons, show isPySpace '$' = false by decide]
      have hnodollar : ∀ c ∈ pyLstrip isPySpace body, ¬ (c = '$' : Prop) :=
        fun c hc => (hbody c (mem_pyLstrip hc)).1
      refine ⟨pyLstrip isPySpace body, ?_, ?_, ?_⟩
      · show pyStrip (fun c => c = '$') (pyStrip isPySpace (body ++ ['$']))
          = pyLstrip isPySpace body
        unfold pyStrip
        rw [elstrip, erstrip]
        have elstrip2 : pyLstrip (fun c => c = '$')
            (pyLstrip isPySpace body ++ ['$'])
            = pyLstrip isPySpace body ++ ['$'] := by
          simp only [pyLstrip, List.dropWhile_append]
          have : (pyLstrip isPySpace body).dropWhile (fun c => decide (c = '$'))
              = pyLstrip isPySpace body :=
            pyLstrip_eq_self (p := fun c => decide (c = '$'))
              (fun c hc => by simpa using hnodollar c hc)
          simp only [pyLstrip] at this
          simp [this, List.isEmpty_iff, hdropne]
        rw [show pyLstrip (fun c => c = '$')
              (pyLstrip isPySpace body ++ ['$'])
            = pyLstrip isPySpace body ++ ['$'] from elstrip2]
        rw [pyRstrip_append_right (fun c hc => by
          simp only [List.mem_singleton] at hc
          simp [hc])]
        exact pyRstrip_eq_self (fun c hc => by simpa using hnodollar c hc)
      · exact mem_pyLstrip_of_not heq hneq
      · exact filter_pyLstrip_space (fun c hc => (hbody c hc).2)
  have hcont : l2v.contains '=' = true := List.elem_eq_true_of_mem hmem
  have hne : l2v.isEmpty = false := by
    cases l2v
    · cases hmem
    · rfl
  unfold parse_line
  dsimp only
  rw [e1, e2, hcont, hne, hfil]
  simp only [Bool.not_true, Bool.or_false, Bool.false_eq_true, if_false]
  unfold parseBody
  rfl

theorem filter_good {k : List Char}
    (hk : ∀ c ∈ k, goodChar c = true ∨ c = ' ') :
    ∀ c ∈ k.filter (· ≠ ' '), goodChar c = true := by
  intro c hc
  obtain ⟨hck, hcs⟩ := List.mem_filter.1 hc
  rcases hk c hck with hg | he
  · exact hg
  · exact absurd he (by simpa using hcs)

theorem goodChar_spec {c : Char} (h : goodChar c = true) :
    c ≠ '=' ∧ c ≠ ',' ∧ c ≠ '$' ∧ isPySpace c = false := by
  unfold goodChar at h
  simp only [Bool.not_eq_true', Bool.or_eq_false_iff, decide_eq_false_iff_not] at h
  exact ⟨h.1.1.1, h.1.1.2, h.1.2, h.2⟩

/-- Computing `parseBody` on a well-formed two-assignment body: the dict holds
exactly the two lower-cased, space-free key/value pairs, in order. -/
theorem parseBody_two {k1 v1 k2 v2 : List Char}
    (hk1 : ∀ c ∈ k1, goodChar c = true ∨ c = ' ')
    (hv1 : ∀ c ∈ v1, goodChar c = true ∨ c = ' ')
    (hk2 : ∀ c ∈ k2, goodChar c = true ∨ c = ' ')
    (hv2 : ∀ c ∈ v2, goodChar c = true ∨ c = ' ')
    (hdist : pyLower (k1.filter (· ≠ ' ')) ≠ pyLower (k2.filter (· ≠ ' '))) :
    parseBody (k1 ++ '=' :: v1 ++ ',' :: k2 ++ '=' :: v2) =
      [(pyLower (k1.filter (· ≠ ' ')), pyLower (v1.filter (· ≠ ' '))),
       (pyLower (k2.filter (· ≠ ' ')), pyLower (v2.filter (· ≠ ' ')))] := by
  set K1 := k1.filter (· ≠ ' ') with hK1
  set V1 := v1.filter (· ≠ ' ') with hV1
  set K2 := k2.filter (· ≠ ' ') with hK2
  set V2 := v2.filter (· ≠ ' ') with hV2
  have hfil : (k1 ++ '=' :: v1 ++ ',' :: k2 ++ '=' :: v2).filter (· ≠ ' ')
      = K1 ++ '=' :: V1 ++ ',' :: K2 ++ '=' :: V2 := by
    simp [List.filter_append, List.filter_cons, hK1, hV1, hK2, hV2]
  have hgK1 := filter_good hk1
  have hgV1 := filter_good hv1
  have hgK2 := filter_good hk2
  have hgV2 := filter_good hv2
  have hnc1 : ',' ∉ K1 ++ '=' :: V1 := by
    intro hm
    rcases List.mem_append.1 hm with hm | hm
    · exact (goodChar_spec (hgK1 _ hm)).2.1 rfl
    · rcases List.mem_cons.1 hm with he | hm
      · exact absurd he.symm (by decide)
      · exact (goodChar_spec (hgV1 _ hm)).2.1 rfl
  have hnc2 : ',' ∉ K2 ++ '=' :: V2 := by
    intro hm
    rcases List.mem_append.1 hm with hm | hm
    · exact (goodChar_spec (hgK2 _ hm)).2.1 rfl
    · rcases List.mem_cons.1 hm with he | hm
      · exact absurd he.symm (by decide)
      · exact (goodChar_spec (hgV2 _ hm)).2.1 rfl
  have hsplit : pySplit ',' (K1 ++ '=' :: V1 ++ ',' :: K2 ++ '=' :: V2)
      = (K1 ++ '=' :: V1) :: [K2 ++ '=' :: V2] := by
    rw [show K1 ++ '=' :: V1 ++ ',' :: K2 ++ '=' :: V2
        = (K1 ++ '=' :: V1) ++ ',' :: (K2 ++ '=' :: V2) by simp]
    rw [pySplit_append_sep hnc1, pySplit_no_sep hnc2]
  have hne1 : K1 ++ '=' :: V1 ≠ [] := by simp
  have hne2 : K2 ++ '=' :: V2 ≠ [] := by simp
  have hmem1 : '=' ∈ K1 ++ '=' :: V1 :=
    List.mem_append_right _ (List.mem_cons_self _ _)
  have hmem2 : '=' ∈ K2 ++ '=' :: V2 :=
    List.mem_append_right _ (List.mem_cons_self _ _)
  have hcont1 : (K1 ++ '=' :: V1).contains '=' = true :=
    List.elem_eq_true_of_mem hmem1
  have hcont2 : (K2 ++ '=' :: V2).contains '=' = true :=
    List.elem_eq_true_of_mem hmem2
  have hsfe1 : splitFirstEq (K1 ++ '=' :: V1) = (K1, V1) :=
    splitFirstEq_append (fun hm => (goodChar_spec (hgK1 _ hm)).1 rfl)
  have hsfe2 : splitFirstEq (K2 ++ '=' :: V2) = (K2, V2) :=
    splitFirstEq_append (fun hm => (goodChar_spec (hgK2 _ hm)).1 rfl)
  unfold parseBody
  rw [hfil, hsplit]
  rw [show ((K1 ++ '=' :: V1) :: [K2 ++ '=' :: V2]).filter (· ≠ [])
      = [K1 ++ '=' :: V1, K2 ++ '=' :: V2] by
    simp [List.filter_cons, hne1, hne2]]
  simp only [List.foldl_cons, List.foldl_nil, hcont1, hcont2, hsfe1, hsfe2,
    if_true]
  rw [show dictInsert [] (pyLower K1) (pyLower V1)
      = [(pyLower K1, pyLower V1)] by simp [dictInsert]]
  rw [show dictInsert [(pyLower K1, pyLower V1)] (pyLower K2) (pyLower V2)
      = [(pyLower K1, pyLower V1), (pyLower K2, pyLower V2)] by
    simp [dictInsert, hdist]]

theorem bodyChar_ok {c : Char}
    (h : goodChar c = true ∨ c = ' ' ∨ c = '=' ∨ c = ',') :
    ¬ c = '$' ∧ (isPySpace c = true → c = ' ') := by
  rcases h with hg | rfl | rfl | rfl
  · obtain ⟨-, -, h3, h4⟩ := goodChar_spec hg
    exact ⟨h3, fun hsp => absurd hsp (by simp [h4])⟩
  · exact ⟨by decide, fun _ => rfl⟩
  · exact ⟨by decide, by decide⟩
  · exact ⟨by decide, by decide⟩

/-! ## Claim C3: parsing well-formed two-assignment frames -/

/-- C3. A well-formed frame `k1=v1,k2=v2` — possibly wrapped in
surrounding whitespace and an optional trailing `'$'` terminator, with
keys and values made of ordinary characters and spaces — parses to
exactly the two-entry mapping with lower-cased keys and values and
internal whitespace removed, in order; and any line containing no `'='`
parses to `none`. -/
theorem parse_line_wellformed
    (ws1 k1 v1 k2 v2 term ws2 : List Char)
    (h1 : ∀ c ∈ ws1, isPySpace c = true) (h2 : ∀ c ∈ ws2, isPySpace c = true)
    (hterm : term = [] ∨ term = ['$'])
    (hk1 : ∀ c ∈ k1, goodChar c = true ∨ c = ' ')
    (hv1 : ∀ c ∈ v1, goodChar c = true ∨ c = ' ')
    (hk2 : ∀ c ∈ k2, goodChar c = true ∨ c = ' ')
    (hv2 : ∀ c ∈ v2, goodChar c = true ∨ c = ' ')
    (hdist : pyLower (k1.filter (· ≠ ' ')) ≠ pyLower (k2.filter (· ≠ ' '))) :
    parse_line (ws1 ++ (k1 ++ '=' :: v1 ++ ',' :: k2 ++ '=' :: v2) ++ term ++ ws2)
      = some [(pyLower (k1.filter (· ≠ ' ')), pyLower (v1.filter (· ≠ ' '))),
              (pyLower (k2.filter (· ≠ ' ')), pyLower (v2.filter (· ≠ ' ')))]
    ∧ ∀ l : List Char, '=' ∉ l → parse_line l = none := by
  constructor
  · have hbody : ∀ c ∈ k1 ++ '=' :: v1 ++ ',' :: k2 ++ '=' :: v2,
        ¬ c = '$' ∧ (isPySpace c = true → c = ' ') := by
      intro c hc
      apply bodyChar_ok
      rcases List.mem_append.1 hc with hc | hc
      · rcases List.mem_append.1 hc with hc | hc
        · rcases List.mem_append.1 hc with hc | hc
          · rcases hk1 c hc with hg | hs
            · exact Or.inl hg
            · exact Or.inr (Or.inl hs)
          · rcases List.mem_cons.1 hc with rfl | hc
            · exact Or.inr (Or.inr (Or.inl rfl))
            · rcases hv1 c hc with hg | hs
              · exact Or.inl hg
              · exact Or.inr (Or.inl hs)
        · rcases List.mem_cons.1 hc with rfl | hc
          · exact Or.inr (Or.inr (Or.inr rfl))
          · rcases hk2 c hc with hg | hs
            · exact Or.inl hg
            · exact Or.inr (Or.inl hs)
      · rcases List.mem_cons.1 hc with rfl | hc
        · exact Or.inr (Or.inr (Or.inl rfl))
        · rcases hv2 c hc with hg | hs
          · exact Or.inl hg
          · exact Or.inr (Or.inl hs)
    have heq : '=' ∈ k1 ++ '=' :: v1 ++ ',' :: k2 ++ '=' :: v2 :=
      List.mem_append_right _ (List.mem_cons_self _ _)
    rw [parse_line_wrap h1 h2 hterm hbody heq,
      parseBody_two hk1 hv1 hk2 hv2 hdist]
    simp
  · intro l hl
    have hmem : '=' ∉ pyStrip (fun c => c = '$') (pyStrip isPySpace l) :=
      fun hx => hl (mem_pyStrip (mem_pyStrip hx))
    unfold parse_line
    dsimp only
    simp [hmem]

/-- C3 witness. `" power=On, Volume=4 5 $ "` parses to
`{power: on, volume: 45}`. -/
theorem parse_line_wellformed_witness :
    parse_line (" power=On, Volume=4 5 $ ".toList)
      = some [("power".toList, "on".toList), ("volume".toList, "45".toList)] := by
  have h := (parse_line_wellformed
    [' '] "power".toList "On".toList [' ', 'V', 'o', 'l', 'u', 'm', 'e']
    "4 5 ".toList ['$'] [' ']
    (by decide) (by decide) (Or.inr rfl)
    (by decide) (by decide) (by decide) (by decide) (by decide)).1
  simpa using h

/-! ## Claim C4: totality and non-emptiness of the parser -/

/-- C4. `_parse_line` is a total function (the Lean embedding is a
plain `def`, so it is deterministic and never raises), and its result is
either `none` or a non-empty mapping: it never returns an empty dict. -/
theorem parse_line_total_nonempty (line : List Char) :
    parse_line line = none ∨
      ∃ m, parse_line line = some m ∧ m ≠ [] := by
  unfold parse_line
  dsimp only
  split
  · exact Or.inl rfl
  · split
    · exact Or.inl rfl
    · next hout => exact Or.inr ⟨_, rfl, hout⟩

/-! ## `_reader_loop` backoff (rotel.py lines 148-179, 181-192)

The loop body is `backoff = 1.0` initially; on an exception it calls
`_reconnect_with_backoff(backoff)` and then sets
`backoff = min(backoff * 2, 30.0)`; a fully successful cycle ends with
`backoff = 1.0  # reset on success`.  The float arithmetic involved is
exact on the reachable values, so the backoff is modelled as `ℚ`. -/

/-- Outcome of one iteration of `_reader_loop`: the whole read cycle
succeeds (reaching the `backoff = 1.0` reset), or an exception puts the
iteration in the `except` branch. -/
inductive ReadCycle
  | success
  | failure

/-- The delays passed to `_reconnect_with_backoff`, given the current
backoff value and the remaining iteration outcomes. -/
def loopDelays : ℚ → List ReadCycle → List ℚ
  | _, [] => []
  | _, ReadCycle.success :: es => loopDelays 1 es
  | b, ReadCycle.failure :: es => b :: loopDelays (min (b * 2) 30) es

theorem loopDelays_failures (n : ℕ) (es : List ReadCycle) :
    ∀ b : ℚ, 0 ≤ b →
      loopDelays (min b 30) (List.replicate n ReadCycle.failure ++ es)
        = (List.range n).map (fun i => min (b * 2 ^ i) 30)
          ++ loopDelays (min (b * 2 ^ n) 30) es := by
  induction n with
  | zero => intro b _; simp
  | succ n ih =>
    intro b hb
    rw [List.replicate_succ, List.cons_append]
    show min b 30 :: loopDelays (min (min b 30 * 2) 30) _ = _
    have key : min (min b 30 * 2) 30 = min (b * 2) 30 := by
      rw [show min b 30 * 2 = min (b * 2) 60 by
        rcases le_total b 30 with h | h
        · rw [min_eq_left h, min_eq_left (by linarith)]
        · rw [min_eq_right h, min_eq_right (by linarith)]; norm_num]
      rw [min_assoc]
      norm_num
    rw [key, ih (b * 2) (by positivity)]
    rw [List.range_succ_eq_map, List.map_cons, List.map_map]
    simp only [pow_zero, mul_one, List.cons_append]
    congr 2
    · apply List.map_congr_left
      intro i _
      simp only [Function.comp_apply]
      congr 1
      · rw [pow_succ]; ring
    · congr 2
      rw [pow_succ]; ring

/-- C1. Across `n` consecutive read failures with no intervening
successful read cycle (starting from the reset state), the delays passed
to `_reconnect_with_backoff` are `min (2^i) 30` for `i = 0, 1, ...` —
that is `1, 2, 4, 8, 16, 30, 30, ...` — after which the stored backoff is
`min (2^n) 30`; a successful read cycle resets the delay for the next
failure to 1; concretely, seven straight failures yield the delays
`[1, 2, 4, 8, 16, 30, 30]`. -/
theorem reader_backoff_sequence (n : ℕ) (es : List ReadCycle) :
    loopDelays 1 (List.replicate n ReadCycle.failure ++ es)
      = (List.range n).map (fun i => min ((2 : ℚ) ^ i) 30)
        ++ loopDelays (min ((2 : ℚ) ^ n) 30) es
    ∧ (∀ b : ℚ, loopDelays b (ReadCycle.success :: es) = loopDelays 1 es)
    ∧ loopDelays 1 (List.replicate 7 ReadCycle.failure)
      = [1, 2, 4, 8, 16, 30, 30] := by
  refine ⟨?_, fun b => rfl, ?_⟩
  · have := loopDelays_failures n es 1 (by norm_num)
    rw [show min (1 : ℚ) 30 = 1 by norm_num] at this
    simpa using this
  · show loopDelays 1
      (ReadCycle.failure :: (ReadCycle.failure :: (ReadCycle.failure ::
        (ReadCycle.failure :: (ReadCycle.failure :: (ReadCycle.failure ::
          (ReadCycle.failure :: []))))))) = [1, 2, 4, 8, 16, 30, 30]
    norm_num [loopDelays]

/-! ## `_reader_loop` framing (rotel.py lines 150-174)

The loop accumulates chunks into `buf` and, while the profile's receive
terminator occurs in the buffer, splits off the frame before the first
occurrence (`head, buf = buf.split(term, 1)`), skips empty frames, and
parses and dispatches the rest.  The profile terminator (`terminator_rx
= "$"`) is a single character, modelled as a `Char` parameter. -/

theorem length_dropWhile_le' (p : Char → Bool) (l : List Char) :
    (l.dropWhile p).length ≤ l.length := by
  induction l with
  | nil => simp
  | cons a t ih =>
    by_cases hp : p a
    · rw [List.dropWhile_cons, if_pos hp]
      exact ih.trans (by simp)
    · rw [List.dropWhile_cons, if_neg hp]

theorem dropWhile_tail_length_lt {term : Char} {buf : List Char}
    (h : term ∈ buf) :
    ((buf.dropWhile (· ≠ term)).tail).length < buf.length := by
  have hne : buf.dropWhile (· ≠ term) ≠ [] := by
    intro hnil
    have := List.dropWhile_eq_nil_iff.1 hnil term h
    simp at this
  have h1 : (buf.dropWhile (· ≠ term)).length ≤ buf.length :=
    length_dropWhile_le' _ _
  cases hd : buf.dropWhile (· ≠ term) with
  | nil => exact absurd hd hne
  | cons a t =>
    rw [hd] at h1
    simp only [hd, List.tail_cons]
    simp at h1
    omega

/-- The `while term in buf` frame-extraction loop of `_reader_loop`:
repeatedly `head, buf = buf.split(term, 1)`; returns the frames split
off, in order, and the remaining buffer (the partial trailing frame). -/
def readerExtract (term : Char) (buf : List Char) :
    List (List Char) × List Char :=
  if h : term ∈ buf then
    let out := readerExtract term ((buf.dropWhile (· ≠ term)).tail)
    (buf.takeWhile (· ≠ term) :: out.1, out.2)
  else ([], buf)
termination_by buf.length
decreasing_by exact dropWhile_tail_length_lt h

theorem readerExtract_not_mem {term : Char} {buf : List Char}
    (h : term ∉ buf) : readerExtract term buf = ([], buf) := by
  unfold readerExtract
  rw [dif_neg h]

theorem readerExtract_of_mem {term : Char} {buf : List Char}
    (h : term ∈ buf) :
    readerExtract term buf
      = (buf.takeWhile (· ≠ term)
            :: (readerExtract term ((buf.dropWhile (· ≠ term)).tail)).1,
         (readerExtract term ((buf.dropWhile (· ≠ term)).tail)).2) := by
  conv_lhs => unfold readerExtract
  rw [dif_pos h]

theorem readerExtract_snd_not_mem (term : Char) (buf : List Char) :
    term ∉ (readerExtract term buf).2 := by
  by_cases h : term ∈ buf
  · rw [readerExtract_of_mem h]
    exact readerExtract_snd_not_mem term ((buf.dropWhile (· ≠ term)).tail)
  · rw [readerExtract_not_mem h]
    exact h
termination_by buf.length
decreasing_by exact dropWhile_tail_length_lt h

theorem takeWhile_append_of_mem_fail {p : Char → Bool} {buf : List Char}
    (c : List Char) (h : ∃ x ∈ buf, p x = false) :
    (buf ++ c).takeWhile p = buf.takeWhile p := by
  induction buf with
  | nil =>
    rcases h with ⟨x, hx, _⟩
    cases hx
  | cons a t ih =>
    by_cases hp : p a
    · rcases h with ⟨x, hx, hpx⟩
      rcases List.mem_cons.1 hx with rfl | hxt
      · rw [hp] at hpx; cases hpx
      · simp only [List.cons_append, List.takeWhile_cons, hp, if_true]
        rw [ih ⟨x, hxt, hpx⟩]
    · simp [List.takeWhile_cons, hp]

theorem dropWhile_append_of_mem_fail {p : Char → Bool} {buf : List Char}
    (c : List Char) (h : ∃ x ∈ buf, p x = false) :
    (buf ++ c).dropWhile p = buf.dropWhile p ++ c := by
  induction buf with
  | nil =>
    rcases h with ⟨x, hx, _⟩
    cases hx
  | cons a t ih =>
    by_cases hp : p a
    · rcases h with ⟨x, hx, hpx⟩
      rcases List.mem_cons.1 hx with rfl | hxt
      · rw [hp] at hpx; cases hpx
      · simp only [List.cons_append, List.dropWhile_cons, hp, if_true]
        exact ih ⟨x, hxt, hpx⟩
    · simp [List.dropWhile_cons, hp]

/-- Appending more input to the buffer extends the extracted frame list:
the frames of `buf ++ c` are the frames of `buf` followed by the frames
of the (terminator-free) remainder of `buf` glued to `c`. -/
theorem readerExtract_append (term : Char) (buf c : List Char) :
    readerExtract term (buf ++ c)
      = ((readerExtract term buf).1
            ++ (readerExtract term ((readerExtract term buf).2 ++ c)).1,
         (readerExtract term ((readerExtract term buf).2 ++ c)).2) := by
  by_cases h : term ∈ buf
  · have hfail : ∃ x ∈ buf, (fun x => decide (x ≠ term)) x = false :=
      ⟨term, h, by simp⟩
    have hne : buf.dropWhile (· ≠ term) ≠ [] := by
      intro hnil
      have := List.dropWhile_eq_nil_iff.1 hnil term h
      simp at this
    have hrest : ((buf ++ c).dropWhile (· ≠ term)).tail
        = (buf.dropWhile (· ≠ term)).tail ++ c := by
      rw [dropWhile_append_of_mem_fail c hfail]
      cases hX : buf.dropWhile (· ≠ term) with
      | nil => exact absurd hX hne
      | cons a t => simp
    rw [readerExtract_of_mem (List.mem_append_left c h),
      readerExtract_of_mem h,
      takeWhile_append_of_mem_fail c hfail, hrest,
      readerExtract_append term ((buf.dropWhile (· ≠ term)).tail) c]
    simp
  · rw [readerExtract_not_mem h]
    simp
termination_by buf.length
decreasing_by exact dropWhile_tail_length_lt h

/-- Left-to-right recursive formulation of the frame extraction loop,
used to evaluate `readerExtract` on concrete buffers (the well-founded
recursion of `readerExtract` does not reduce definitionally);
`readerExtract_eq_scan` proves the two agree everywhere. -/
def readerScan (term : Char) : List Char → List (List Char) × List Char
  | [] => ([], [])
  | c :: rest =>
    let out := readerScan term rest
    if c = term then ([] :: out.1, out.2)
    else
      match out.1 with
      | [] => ([], c :: out.2)
      | f :: fs => ((c :: f) :: fs, out.2)

theorem readerExtract_eq_scan (term : Char) (buf : List Char) :
    readerExtract term buf = readerScan term buf := by
  induction buf with
  | nil => rw [readerExtract_not_mem (by simp)]; rfl
  | cons c rest ih =>
    by_cases hc : c = term
    · subst hc
      have hmem : c ∈ c :: rest := List.mem_cons_self c rest
      rw [readerExtract_of_mem hmem]
      rw [show (c :: rest).takeWhile (· ≠ c) = [] by
        simp [List.takeWhile_cons]]
      rw [show ((c :: rest).dropWhile (· ≠ c)).tail = rest by
        simp [List.dropWhile_cons]]
      rw [ih]
      simp [readerScan]
    · by_cases hr : term ∈ rest
      · have hmem : term ∈ c :: rest := List.mem_cons_of_mem c hr
        rw [readerExtract_of_mem hmem]
        rw [show (c :: rest).takeWhile (· ≠ term)
            = c :: rest.takeWhile (· ≠ term) by
          simp [List.takeWhile_cons, hc]]
        rw [show ((c :: rest).dropWhile (· ≠ term)).tail
            = (rest.dropWhile (· ≠ term)).tail by
          simp [List.dropWhile_cons, hc]]
        have hout := readerExtract_of_mem hr
        rw [ih] at hout
        show ((c :: rest.takeWhile (· ≠ term))
            :: (readerExtract term ((rest.dropWhile (· ≠ term)).tail)).1,
          (readerExtract term ((rest.dropWhile (· ≠ term)).tail)).2)
          = readerScan term (c :: rest)
        simp only [readerScan, hc, if_false]
        rw [show readerScan term rest
            = (rest.takeWhile (· ≠ term)
                :: (readerExtract term ((rest.dropWhile (· ≠ term)).tail)).1,
              (readerExtract term ((rest.dropWhile (· ≠ term)).tail)).2)
          from hout.symm ▸ rfl]
      · have hmem : term ∉ c :: rest := by
          intro hx
          rcases List.mem_cons.1 hx with rfl | hx
          · exact hc rfl
          · exact hr hx
        rw [readerExtract_not_mem hmem]
        have hout := readerExtract_not_mem hr
        rw [ih] at hout
        simp only [readerScan, hc, if_false]
        rw [show readerScan term rest = ([], rest) from hout.symm ▸ rfl]

/-- Frame handling of `_reader_loop`: an empty frame is skipped
(`if not head: continue`); otherwise the frame is decoded (the identity
at this granularity) and parsed, and only truthy messages — not `None`
and non-empty — are dispatched (`if msg:`). -/
def frameMsgs (frames : List (List Char)) : List Dict :=
  frames.filterMap (fun head =>
    if head = [] then none
    else match parse_line head with
      | some m => if m = [] then none else some m
      | none => none)

/-- One iteration of the reader loop for one received chunk: append the
chunk to the buffer, extract all complete frames, dispatch their
messages in order after the previously dispatched ones. -/
def readerStep (term : Char) (st : List Dict × List Char)
    (chunk : List Char) : List Dict × List Char :=
  let ex := readerExtract term (st.2 ++ chunk)
  (st.1 ++ frameMsgs ex.1, ex.2)

/-- The reader loop over a sequence of received chunks, from an empty
buffer, returning the dispatched messages in dispatch order and the
final (partial-frame) buffer. -/
def readerRun (term : Char) (chunks : List (List Char)) :
    List Dict × List Char :=
  chunks.foldl (readerStep term) ([], [])

theorem readerRun_from (term : Char) (chunks : List (List Char)) :
    ∀ (msgs : List Dict) (buf : List Char), term ∉ buf →
      chunks.foldl (readerStep term) (msgs, buf)
        = (msgs ++ frameMsgs (readerExtract term (buf ++ chunks.flatten)).1,
           (readerExtract term (buf ++ chunks.flatten)).2) := by
  induction chunks with
  | nil =>
    intro msgs buf hbuf
    simp [readerExtract_not_mem hbuf, frameMsgs]
  | cons c cs ih =>
    intro msgs buf hbuf
    rw [List.foldl_cons]
    show cs.foldl (readerStep term)
        (msgs ++ frameMsgs (readerExtract term (buf ++ c)).1,
         (readerExtract term (buf ++ c)).2) = _
    rw [ih _ _ (readerExtract_snd_not_mem term (buf ++ c))]
    rw [show buf ++ (c :: cs).flatten = (buf ++ c) ++ cs.flatten by simp,
      readerExtract_append term (buf ++ c) cs.flatten]
    simp [frameMsgs, List.filterMap_append]

/-! ## Claim C2: in-order framing, independent of chunk boundaries -/

/-- C2. Feeding any sequence of non-empty received chunks through the
reader loop dispatches exactly the parsed messages of the
terminator-delimited frames of the chunks' concatenation, in frame
order, and leaves the partial trailing frame buffered; consequently any
two chunkings of the same byte stream dispatch identical message
sequences and leave identical buffers. -/
theorem reader_frames_in_order (term : Char) (chunks : List (List Char))
    (hchunks : ∀ c ∈ chunks, c ≠ []) :
    readerRun term chunks
      = (frameMsgs (readerExtract term chunks.flatten).1,
         (readerExtract term chunks.flatten).2)
    ∧ ∀ chunks2 : List (List Char), chunks2.flatten = chunks.flatten →
        readerRun term chunks2 = readerRun term chunks := by
  have hcanon : ∀ c2 : List (List Char),
      readerRun term c2
        = (frameMsgs (readerExtract term c2.flatten).1,
           (readerExtract term c2.flatten).2) := by
    intro c2
    have h := readerRun_from term c2 [] [] (by simp)
    simpa [readerRun] using h
  exact ⟨hcanon chunks, fun c2 hf => by rw [hcanon c2, hcanon chunks, hf]⟩

/-- C2 witness. The stream `"power=on$volume=45$mu"` received as the
three chunks `"po"`, `"wer=on$vol"`, `"ume=45$mu"` dispatches the two
messages in frame order and leaves `"mu"` buffered. -/
theorem reader_frames_in_order_witness :
    readerRun '$' ["po".toList, "wer=on$vol".toList, "ume=45$mu".toList]
      = ([[("power".toList, "on".toList)], [("volume".toList, "45".toList)]],
         "mu".toList) := by
  rw [(reader_frames_in_order '$'
    ["po".toList, "wer=on$vol".toList, "ume=45$mu".toList] (by decide)).1]
  rw [readerExtract_eq_scan]
  decide

/-! ## Listener set (rotel.py lines 43, 87-93)

`self._listeners` is a Python `set` of callbacks; callbacks are modelled
by identifiers.  `set.add` absorbs an already-present element;
`set.discard` removes an element when present and is a no-op otherwise —
it never raises. -/

abbrev Listener := ℕ

/-- Python `self._listeners.add(cb)`. -/
def pySetAdd (s : List Listener) (x : Listener) : List Listener :=
  if x ∈ s then s else s ++ [x]

/-- Python `self._listeners.discard(cb)` — the body of the `_unsub` closure
returned by `add_listener`. -/
def pySetDiscard (s : List Listener) (x : Listener) : List Listener :=
  s.filter (· ≠ x)

theorem pySetDiscard_pySetAdd {s : List Listener} {x : Listener}
    (h : x ∉ s) : pySetDiscard (pySetAdd s x) x = s := by
  unfold pySetAdd
  rw [if_neg h]
  unfold pySetDiscard
  rw [List.filter_append]
  have h1 : s.filter (· ≠ x) = s :=
    List.filter_eq_self.mpr (fun a ha => by
      simp only [decide_eq_true_iff]
      exact fun e => h (e ▸ ha))
  simp [h1]
  exact fun a ha e => h (e ▸ ha)

/-! ## Claim C10: listener registration algebra -/

/-- C10. Registering the same callback twice yields a single
membership (the second `add` is absorbed); an unsubscribe handle removes
the callback entirely; unsubscribing is idempotent and, after the
callback is already gone, a no-op — and `discard` is a total function,
so it never raises. -/
theorem add_listener_set_semantics (s : List Listener) (x : Listener) :
    pySetAdd (pySetAdd s x) x = pySetAdd s x
    ∧ x ∈ pySetAdd s x
    ∧ x ∉ pySetDiscard (pySetAdd s x) x
    ∧ pySetDiscard (pySetDiscard s x) x = pySetDiscard s x
    ∧ (x ∉ s → pySetDiscard s x = s) := by
  have hmem : x ∈ pySetAdd s x := by
    by_cases h : x ∈ s <;> simp [pySetAdd, h]
  refine ⟨?_, hmem, ?_, ?_, ?_⟩
  · show (if x ∈ pySetAdd s x then pySetAdd s x
        else pySetAdd s x ++ [x]) = pySetAdd s x
    rw [if_pos hmem]
  · simp [pySetDiscard]
  · simp [pySetDiscard, List.filter_filter]
  · intro h
    exact List.filter_eq_self.mpr (fun a ha => by
      simp only [decide_eq_true_iff]
      exact fun e => h (e ▸ ha))

/-- C10 witness. Unsubscribing a callback that is not registered is
a no-op. -/
theorem add_listener_set_semantics_witness :
    pySetDiscard [1, 2] 0 = [1, 2] :=
  (add_listener_set_semantics [1, 2] 0).2.2.2.2 (by decide)

/-! ## Message fan-out (rotel.py lines 168-174) -/

/-- What a listener callback may do when invoked: remove some listeners
(through the unsubscribe closures of `add_listener`, including its own)
and/or raise. -/
structure CbBehavior where
  removes : List Listener
  raises : Bool

/-- Run one callback against the live listener set: its removals are
`set.discard`s; whether it raised is reported to the dispatch loop. -/
def runCb (beh : Listener → CbBehavior) (cb : Listener)
    (live : List Listener) : List Listener × Bool :=
  ((beh cb).removes.foldl pySetDiscard live, (beh cb).raises)

/-- The dispatch loop `for cb in list(self._listeners)`: iterate over a
snapshot of the listener set, invoking each callback inside
`try/except` — a raise is caught and logged and iteration continues.
Returns the invocation sequence and the final live set. -/
def dispatchMsg (beh : Listener → CbBehavior) :
    List Listener → List Listener → List Listener × List Listener
  | [], live => ([], live)
  | cb :: rest, live =>
    let r := runCb beh cb live
    let out := dispatchMsg beh rest r.1
    (cb :: out.1, out.2)

/-! ## Claim C7: snapshot fan-out isolates listener failures -/

/-- C7. Every listener in the snapshot taken at dispatch time is
invoked exactly once, in snapshot order, whatever the callbacks do
(raising, removing themselves or others) — dispatch always completes the
full pass and returns (so the receive loop is not stopped); moreover the
dispatch outcome is unchanged if callbacks raise or not, as long as they
perform the same removals (a raise is caught and has no further
effect); removal itself is `set.discard`, total, so it never raises. -/
theorem dispatch_snapshot_isolation (beh beh2 : Listener → CbBehavior)
    (snap live : List Listener)
    (hsame : ∀ cb, (beh cb).removes = (beh2 cb).removes) :
    (dispatchMsg beh snap live).1 = snap
    ∧ dispatchMsg beh snap live = dispatchMsg beh2 snap live := by
  induction snap generalizing live with
  | nil => exact ⟨rfl, rfl⟩
  | cons cb rest ih =>
    refine ⟨?_, ?_⟩
    · show cb :: (dispatchMsg beh rest (runCb beh cb live).1).1 = cb :: rest
      rw [(ih _).1]
    · show (cb :: (dispatchMsg beh rest (runCb beh cb live).1).1,
          (dispatchMsg beh rest (runCb beh cb live).1).2)
        = (cb :: (dispatchMsg beh2 rest (runCb beh2 cb live).1).1,
          (dispatchMsg beh2 rest (runCb beh2 cb live).1).2)
      have hr : (runCb beh cb live).1 = (runCb beh2 cb live).1 := by
        simp [runCb, hsame cb]
      rw [hr, (ih _).2]

/-- C7 witness. Three listeners that each raise and remove
themselves are all invoked once, and the outcome equals that of the same
removals without raising. -/
theorem dispatch_snapshot_isolation_witness :
    (dispatchMsg (fun cb => ⟨[cb], true⟩) [0, 1, 2] [0, 1, 2]).1 = [0, 1, 2]
    ∧ dispatchMsg (fun cb => ⟨[cb], true⟩) [0, 1, 2] [0, 1, 2]
      = dispatchMsg (fun cb => ⟨[cb], false⟩) [0, 1, 2] [0, 1, 2] :=
  dispatch_snapshot_isolation (fun cb => ⟨[cb], true⟩)
    (fun cb => ⟨[cb], false⟩) [0, 1, 2] [0, 1, 2] (fun _ => rfl)

/-! ## Client state, `_send`, `command`, `query`
(rotel.py lines 36-50, 56-66, 95-118, 138-146) -/

/-- Errors surfaced by the client:
`RuntimeError("Not connected")` raised by `_send`, a transport write
failure in `writer.write`/`drain`, and an `open_connection` failure. -/
inductive RErr
  | notConnected
  | sendFailure
  | connectFailure
deriving DecidableEq

/-- The externally relevant client state: `connected` (the writer is
open and not closing) and the listener set. -/
structure ClientState where
  connected : Bool
  listeners : List Listener

/-- The `asyncio.wait_for(fut, timeout=2.0)` timeout of `query`, in
seconds. -/
def queryTimeout : ℚ := 2

/-- Python `repr` of a short quote-free string. -/
def pyRepr (s : List Char) : List Char := '\'' :: (s ++ ['\''])

/-- Python `str()` of a dict of strings:
`\x7b'k1': 'v1', 'k2': 'v2'\x7d`. -/
def pyStrDict (d : Dict) : List Char :=
  '\x7b' :: (List.intercalate [',', ' ']
      (d.map (fun kv => pyRepr kv.1 ++ ':' :: ' ' :: pyRepr kv.2))
    ++ ['\x7d'])

/-- The resolution rule of `query`'s `_once` callback: a single-key
message resolves the future to its value (`next(iter(msg.values()))`),
any other message to `str(msg)`. -/
def onceResolve (msg : Dict) : List Char :=
  if msg.length = 1 then (msg.headI).2 else pyStrDict msg

/-- Outcome of `query`'s wait: the one-shot listener fired with the next
dispatched message within the timeout, or the timeout elapsed
(`asyncio.TimeoutError` caught, `return None`). -/
inductive QueryWait
  | answered (msg : Dict)
  | timedOut

/-- Model of `_send` (lines 138-146): raises `RuntimeError("Not connected")` when
the client is not connected; otherwise writes and drains, which may fail
with a transport error — abstracted by the `sendOk` oracle. -/
def sendRun (st : ClientState) (sendOk : Bool) : Except RErr Unit :=
  if !st.connected then Except.error RErr.notConnected
  else if sendOk then Except.ok () else Except.error RErr.sendFailure

/-- Model of `query` (lines 99-118): create a future, register the one-shot
`_once` listener, then `try: _send(q); wait_for(fut, 2.0)` with
`finally: unsub()` — the listener is discarded on every exit path.  A
send failure (including not being connected: `query` never calls
`ensure_connected`) propagates as the error; a timeout returns `None`;
an answer resolves per `onceResolve`.  The connection state is not
modified. -/
def queryRun (st : ClientState) (once : Listener) (sendOk : Bool)
    (wait : QueryWait) : Except RErr (Option (List Char)) × ClientState :=
  let l1 := pySetAdd st.listeners once
  let result : Except RErr (Option (List Char)) :=
    match sendRun st sendOk with
    | Except.error e => Except.error e
    | Except.ok () =>
      match wait with
      | QueryWait.answered msg => Except.ok (some (onceResolve msg))
      | QueryWait.timedOut => Except.ok none
  (result, { st with listeners := pySetDiscard l1 once })

/-- Model of `connect` / `ensure_connected` / `command` (lines 56-66, 95-97):
`command` first ensures a connection — opening one if not connected,
which may fail with `ConnectFailure` — and then `_send`s. -/
def commandRun (st : ClientState) (connectOk sendOk : Bool) :
    Except RErr Unit × ClientState :=
  if st.connected then (sendRun st sendOk, st)
  else if connectOk then
    let st2 := { st with connected := true }
    (sendRun st2 sendOk, st2)
  else (Except.error RErr.connectFailure, st)

/-! ## Claim C5: query resolution rule -/

/-- C5. When connected and the send succeeds: a query answered by a
single-key message returns that key's value; one answered by a
multi-key message returns the string rendering of the whole mapping; an
unanswered query returns `none` after the timeout (`queryTimeout` = 2
time-units) instead of raising. -/
theorem query_resolution (st : ClientState) (once : Listener)
    (msg : Dict) (k v : List Char)
    (hconn : st.connected = true) :
    ((queryRun st once true (QueryWait.answered [(k, v)])).1
        = Except.ok (some v))
    ∧ (1 < msg.length →
        (queryRun st once true (QueryWait.answered msg)).1
          = Except.ok (some (pyStrDict msg)))
    ∧ (queryRun st once true QueryWait.timedOut).1 = Except.ok none
    ∧ queryTimeout = 2 := by
  refine ⟨?_, ?_, ?_, rfl⟩
  · simp [queryRun, sendRun, hconn, onceResolve, List.headI]
  · intro hlen
    simp [queryRun, sendRun, hconn, onceResolve,
      show msg.length ≠ 1 by omega]
  · simp [queryRun, sendRun, hconn]

/-- C5 witness. A query answered by `volume=45` returns `"45"`. -/
theorem query_resolution_witness :
    (queryRun ⟨true, []⟩ 0 true
        (QueryWait.answered [("volume".toList, "45".toList)])).1
      = Except.ok (some "45".toList) :=
  (query_resolution ⟨true, []⟩ 0 [] "volume".toList "45".toList rfl).1

/-! ## Claim C6: the one-shot listener never leaks -/

/-- C6. On every outcome of `query` — answered, timed out, or the
send failing (connected or not) — the `finally: unsub()` removes the
one-shot listener, so the listener set after `query` equals the set
before. -/
theorem query_listener_restored (st : ClientState) (once : Listener)
    (sendOk : Bool) (wait : QueryWait)
    (hfresh : once ∉ st.listeners) :
    (queryRun st once sendOk wait).2.listeners = st.listeners := by
  show pySetDiscard (pySetAdd st.listeners once) once = st.listeners
  exact pySetDiscard_pySetAdd hfresh

/-- C6 witness. A disconnected query (send raises) still restores
the listener set `[5]`. -/
theorem query_listener_restored_witness :
    (queryRun ⟨false, [5]⟩ 9 false QueryWait.timedOut).2.listeners = [5] :=
  query_listener_restored ⟨false, [5]⟩ 9 false QueryWait.timedOut (by decide)

/-! ## Claim C9: query does not connect -/

/-- C9. A `query` while disconnected raises the not-connected error
(it does not return `none`), leaves the connection closed (it never
calls `ensure_connected`), and still deregisters its one-shot listener;
by contrast `command` while disconnected establishes a connection when
the transport allows it. -/
theorem query_not_connected (st : ClientState) (once : Listener)
    (sendOk : Bool) (wait : QueryWait)
    (hdis : st.connected = false) (hfresh : once ∉ st.listeners) :
    (queryRun st once sendOk wait).1 = Except.error RErr.notConnected
    ∧ (queryRun st once sendOk wait).2.connected = false
    ∧ (queryRun st once sendOk wait).2.listeners = st.listeners
    ∧ (commandRun st true sendOk).2.connected = true := by
  refine ⟨?_, ?_, ?_, ?_⟩
  · simp [queryRun, sendRun, hdis]
  · simp [queryRun, hdis]
  · show pySetDiscard (pySetAdd st.listeners once) once = st.listeners
    exact pySetDiscard_pySetAdd hfresh
  · simp [commandRun, hdis]

/-- C9 witness. A disconnected query errors with `notConnected`
while a disconnected command connects. -/
theorem query_not_connected_witness :
    (queryRun ⟨false, []⟩ 3 true QueryWait.timedOut).1
        = Except.error RErr.notConnected
    ∧ (commandRun ⟨false, []⟩ true true).2.connected = true :=
  ⟨(query_not_connected ⟨false, []⟩ 3 true QueryWait.timedOut rfl
      (by decide)).1,
   (query_not_connected ⟨false, []⟩ 3 true QueryWait.timedOut rfl
      (by decide)).2.2.2⟩

/-! ## `refresh_all` (rotel.py lines 126-135)

The loop sends the four query commands in a fixed order with an
inter-command pacing `asyncio.sleep(0.05)` inside the same `try`; the
blanket `except Exception: pass` swallows each iteration's failure
individually. -/

/-- The fixed polling order of `refresh_all`. -/
def refreshOrder : List String :=
  ["power_query", "volume_query", "mute_query", "source_query"]

/-- The `commands` table of the `rotel_ascii_v1` profile
(profiles.py lines 30-43); `commands.get(key)`. -/
def rotelCommands (key : String) : Option String :=
  ([("power_on", "power_on!"), ("power_off", "power_off!"),
    ("power_query", "power?"), ("volume_query", "volume?"),
    ("mute_on", "mute_on!"), ("mute_off", "mute_off!"),
    ("mute_query", "mute?"), ("source_query", "source?"),
    ("push_on", "rs232_update_on!"), ("push_off", "rs232_update_off!"),
    ("model_query", "model?"), ("version_query", "version?")] :
    List (String × String)).lookup key

/-- Model of `refresh_all`: for each key of the fixed order, look up the profile
command; a missing key is skipped (`if not cmd: continue`); a present
command is sent inside `try/except: pass`, so the send's own outcome
(the `sendOk` oracle) is recorded but never propagated, and a failed
send does not stop the iteration.  The function is total: it cannot
raise. -/
def refreshAllRun (commands : String → Option String)
    (sendOk : String → Bool) : List (String × Bool) :=
  refreshOrder.foldl
    (fun sent key =>
      match commands key with
      | none => sent
      | some cmd => sent ++ [(cmd, sendOk cmd)])
    []

theorem refreshAll_fst_aux (commands : String → Option String)
    (sendOk sendOk2 : String → Bool) (keys : List String) :
    ∀ sent sent2 : List (String × Bool),
      sent.map Prod.fst = sent2.map Prod.fst →
      ((keys.foldl (fun sent key =>
          match commands key with
          | none => sent
          | some cmd => sent ++ [(cmd, sendOk cmd)]) sent).map Prod.fst)
        = ((keys.foldl (fun sent key =>
            match commands key with
            | none => sent
            | some cmd => sent ++ [(cmd, sendOk2 cmd)]) sent2).map
              Prod.fst) := by
  induction keys with
  | nil =>
    intro sent sent2 h
    simpa using h
  | cons k ks ih =>
    intro sent sent2 h
    simp only [List.foldl_cons]
    cases commands k with
    | none => exact ih _ _ h
    | some cmd => exact ih _ _ (by simp [h])

/-! ## Claim C8: best-effort fixed-order polling -/

/-- C8. `refresh_all` attempts the profile's power, volume, mute and
source query commands in exactly that order whatever the send outcomes
are — the attempted command sequence is independent of which sends fail,
because each failure is swallowed individually — and, being a total
function into a plain list, it propagates no error to its caller. -/
theorem refresh_all_order_and_isolation (sendOk : String → Bool) :
    (refreshAllRun rotelCommands sendOk).map Prod.fst
      = ["power?", "volume?", "mute?", "source?"]
    ∧ ∀ (commands : String → Option String) (sendOk2 : String → Bool),
        (refreshAllRun commands sendOk).map Prod.fst
          = (refreshAllRun commands sendOk2).map Prod.fst := by
  constructor
  · rfl
  · intro commands sendOk2
    exact refreshAll_fst_aux commands sendOk sendOk2 refreshOrder [] [] rfl

end RotelIP
